import Mathlib

/-!
Verification development for the tkxml markup parser
(`src/tkxml/parser.py`).  The parser is modelled as a shallow embedding:
Python strings become `List Char`, Python exceptions become an explicit
`Err` type threaded through `Except`, and the two recursive procedures
(`get_attribute_value` and `parse`, together with their internal `while`
loops) become fuel-indexed structural recursions.  A linear fuel bound is
proved sufficient, so the fuel-free wrappers `get_attribute_value` and
`parse` compute exactly what the Python functions compute.
-/

namespace Tkxml

/-- Python string data is modelled as a list of characters. -/
abbrev Data := List Char

/-- The single-quote character, written via its code point. -/
def squote : Char := Char.ofNat 39

/-- The double-quote character. -/
def dquote : Char := Char.ofNat 34

/-- The backslash character. -/
def bslash : Char := Char.ofNat 92

/-- The newline character. -/
def nl : Char := Char.ofNat 10

/-- Characters stripped by Python `str.lstrip()` / `str.strip()`
(ASCII whitespace: space, tab, newline, carriage return, vertical tab,
form feed; the markup handled by this repository is ASCII). -/
def isPySpace (c : Char) : Bool :=
  c == ' ' || c == Char.ofNat 9 || c == nl || c == Char.ofNat 13 ||
    c == Char.ofNat 11 || c == Char.ofNat 12

/-- Python `str.lstrip()`. -/
def pyLstrip (l : Data) : Data := l.dropWhile isPySpace

/-- Python `str.rstrip()`. -/
def pyRstrip (l : Data) : Data := (l.reverse.dropWhile isPySpace).reverse

/-- Python `str.strip()`. -/
def pyStrip (l : Data) : Data := pyRstrip (pyLstrip l)

/-- Index of the first character satisfying `p`, as with Python
`str.index` / `str.partition` / `re` searches. -/
def pyIndex? (p : Char → Bool) : Data → Option Nat
  | [] => none
  | c :: cs => if p c then some 0 else (pyIndex? p cs).map (· + 1)

/-- The Python exceptions the parser can raise.
`indexError` is `data[0]` / `data[:...]` indexing an exhausted string;
`typeError` is tuple-unpacking a `None`;
`attributeError` is `match.end()` on a failed `re.match` (which returns
`None`); `valueError msg` is an explicitly raised `ValueError` or the
`ValueError` raised by `str.index` when the substring is missing.
`outOfFuel` is an artifact of the fuel-indexed model; the fuel-sufficiency
theorems show the wrappers never produce it. -/
inductive Err where
  | indexError
  | typeError
  | attributeError
  | valueError (msg : String)
  | outOfFuel
deriving DecidableEq, Repr

/-- The three layout managers, selected by the opening bracket. -/
inductive Layout where
  | pack
  | grid
  | place
deriving DecidableEq, Repr

/-- Result of Python `float(token)`: a finite value, an infinity, or nan.
Finite values are carried as the exact rational value of the accepted
literal.  (CPython rounds the literal to the nearest binary64 and
overflows huge exponents to infinity; those refinements are irrelevant
here — every numeric literal appearing in this development is a small
integer, on which the exact value and the binary64 value coincide.) -/
inductive PyFloat where
  | finite (q : ℚ)
  | inf (neg : Bool)
  | nan
deriving DecidableEq, Repr

/-- An attribute value: a string, a number (`float` coercion succeeded),
or — in the grammar the spec describes — a list of values. -/
inductive AttrValue where
  | str (s : Data)
  | num (x : PyFloat)
  | list (xs : List AttrValue)

/-- `node.attributes`: a Python `dict` preserving insertion order. -/
abbrev AttrList := List (Data × AttrValue)

/-- `d[k] = v` on an insertion-ordered Python dict: overwrite in place if
the key exists, else append. -/
def dictInsert (m : AttrList) (k : Data) (v : AttrValue) : AttrList :=
  match m with
  | [] => [(k, v)]
  | (k', v') :: rest =>
    if k' = k then (k', v) :: rest else (k', v') :: dictInsert rest k v

/-- The `Node` class of `parser.py`. -/
structure Node where
  name : Data
  attributes : AttrList
  children : List Node
  layout_manager : Layout

/-- Numeric value of an ASCII digit. -/
def digitVal (c : Char) : Nat := c.toNat - 48

/-- Scan `digit (["_"] digit)*` continuing an already-started digit group:
accumulates the value `v` and the digit count `k`, stopping before
anything that cannot extend the group (an underscore must be followed by a
digit, as in Python numeric literals). -/
def digitsCore (v k : Nat) : Data → Nat × Nat × Data
  | [] => (v, k, [])
  | c :: cs =>
    if c.isDigit then digitsCore (10 * v + digitVal c) (k + 1) cs
    else if c = '_' then
      match cs with
      | d :: cs2 =>
        if d.isDigit then digitsCore (10 * v + digitVal d) (k + 1) cs2
        else (v, k, c :: cs)
      | [] => (v, k, c :: cs)
    else (v, k, c :: cs)

/-- A Python `digitpart`: at least one digit, underscores allowed between
digits.  Returns the value, the number of digits, and the rest. -/
def digitPart? : Data → Option (Nat × Nat × Data)
  | [] => none
  | c :: cs => if c.isDigit then some (digitsCore (digitVal c) 1 cs) else none

/-- Case-insensitively strip a (lowercase) pattern from the front. -/
def stripCI : Data → Data → Option Data
  | [], rest => some rest
  | _ :: _, [] => none
  | p :: ps, c :: cs => if c.toLower = p then stripCI ps cs else none

/-- The mantissa of a Python float literal: `digitpart ["." [digitpart]]`
or `"." digitpart`.  Returns `(n0, fk, rest)` where the mantissa value is
`n0 / 10 ^ fk` (all arithmetic kept in `Nat` so results evaluate). -/
def pyMantissa? (s : Data) : Option (Nat × Nat × Data) :=
  match digitPart? s with
  | some (iv, _, r1) =>
    match r1 with
    | '.' :: r2 =>
      match digitPart? r2 with
      | some (fv, fk, r3) => some (iv * 10 ^ fk + fv, fk, r3)
      | none => some (iv, 0, r2)
    | _ => some (iv, 0, r1)
  | none =>
    match s with
    | '.' :: r2 =>
      match digitPart? r2 with
      | some (fv, fk, r3) => some (fv, fk, r3)
      | none => none
    | _ => none

/-- An optional exponent ending the literal: empty, or
`("e"|"E") [sign] digitpart` consuming everything that remains. -/
def pyExp? : Data → Option Int
  | [] => some 0
  | e :: rest =>
    if e.toLower = 'e' then
      match rest with
      | '+' :: r2 =>
        match digitPart? r2 with
        | some (ev, _, r3) => if r3 = [] then some (ev : Int) else none
        | none => none
      | '-' :: r2 =>
        match digitPart? r2 with
        | some (ev, _, r3) => if r3 = [] then some (-(ev : Int)) else none
        | none => none
      | r2 =>
        match digitPart? r2 with
        | some (ev, _, r3) => if r3 = [] then some (ev : Int) else none
        | none => none
    else none

/-- Model of Python `float(tok)`: strip surrounding whitespace, optional
sign, then `inf`/`infinity`/`nan` (case-insensitive) or a decimal literal
with optional fraction and exponent.  `none` models the `ValueError` the
`except ValueError` clause in `get_attribute_value` catches. -/
def pyFloat? (tok : Data) : Option PyFloat :=
  let s := pyStrip tok
  let signed : Bool × Data :=
    match s with
    | '+' :: r => (false, r)
    | '-' :: r => (true, r)
    | _ => (false, s)
  let neg := signed.1
  let body := signed.2
  match stripCI "infinity".toList body with
  | some [] => some (.inf neg)
  | _ =>
    match stripCI "inf".toList body with
    | some [] => some (.inf neg)
    | _ =>
      match stripCI "nan".toList body with
      | some [] => some .nan
      | _ =>
        match pyMantissa? body with
        | none => none
        | some (n0, fk, r1) =>
          match pyExp? r1 with
          | none => none
          | some e =>
            let num : Int := (if neg then -1 else 1) * (n0 * 10 ^ e.toNat : Nat)
            let den : Nat := 10 ^ (fk + (-e).toNat)
            some (.finite (mkRat num den))

/-- The character class of the regex `[^/}\]> ]+` used for tag names and
unquoted tokens: the scan stops at `/`, `closing brace`, `]`, `>`, space. -/
def tokenStop (c : Char) : Bool :=
  c == '/' || c == '}' || c == ']' || c == '>' || c == ' '

/-- The regex match for a quoted value.  `quoteScan q prev rest` mirrors
the lazy search performed by `re.match` with pattern
quote, lazily-matched interior, then the same quote with a negative
lookbehind for a backslash: it returns the length of the shortest interior
whose following character is the quote `q` not preceded by a backslash.
The interior is matched by a lazy dot, which cannot cross a newline, so
meeting a newline first means the regex fails to match. -/
def quoteScan (q : Char) : Char → Data → Option Nat
  | _, [] => none
  | prev, c :: cs =>
    if c = q ∧ prev ≠ bslash then some 0
    else if c = nl then none
    else (quoteScan q c cs).map (· + 1)

/-- One result of `get_attribute_value`: Python returns either a
`(value, rest)` tuple or — when the `[` branch falls off the end of the
function — the bare value `None`, modelled as `none`. -/
abbrev GavRes := Except Err (Option (AttrValue × Data))

/-- The `while data[0] != "]"` loop inside the `[` branch of
`get_attribute_value` (lines 28–30 of parser.py).  Each iteration parses
one element with `step` (the recursive `get_attribute_value` call) and
appends it to a local list.  When the loop finishes, control falls off
the end of the Python function, which therefore returns `None`: the
collected list is discarded, hence this loop never produces a pair.
If `step` itself returns `None` (a nested list), the tuple unpacking
`element, data = get_attribute_value(data)` raises `TypeError`. -/
def gav_listLoop (step : Data → GavRes) : Nat → Data → GavRes
  | 0, _ => .error .outOfFuel
  | _ + 1, [] => .error .indexError
  | fuel + 1, c :: t =>
    if c = ']' then .ok none
    else
      match step (c :: t) with
      | .error e => .error e
      | .ok none => .error .typeError
      | .ok (some (_, data2)) => gav_listLoop step fuel data2

/-- `get_attribute_value` (parser.py lines 15–39), fuel-indexed.
Strips leading whitespace, then branches on the first character:
a quote starts the regex scan; `[` enters the list loop (see
`gav_listLoop`); anything else is an unquoted token matched by
`[^/}\]> ]+` and coerced through `float`. -/
def get_attribute_valueF : Nat → Data → GavRes
  | 0, _ => .error .outOfFuel
  | fuel + 1, data0 =>
    let data := pyLstrip data0
    match data with
    | [] => .error .indexError
    | c :: rest =>
      if c = squote ∨ c = dquote then
        match quoteScan c c rest with
        | none => .error (.valueError "Mismatched quotes in attribute value")
        | some i => .ok (some (.str (rest.take i), rest.drop (i + 1)))
      else if c = '[' then
        gav_listLoop (get_attribute_valueF fuel) fuel rest
      else
        let tok := data.takeWhile (fun a => !tokenStop a)
        if tok = [] then .error .attributeError
        else
          match pyFloat? tok with
          | some x => .ok (some (.num x, data.drop tok.length))
          | none => .ok (some (.str tok, data.drop tok.length))

/-- Fuel sufficient for `get_attribute_valueF` (proved below). -/
def gavFuel (d : Data) : Nat := 2 * d.length + 2

/-- The fuel-free `get_attribute_value`. -/
def get_attribute_value (d : Data) : GavRes := get_attribute_valueF (gavFuel d) d

/-- Does `data[:2]` start a comment (`//` or `/*`)? -/
def isCommentStart : Data → Bool
  | a :: b :: _ => a == '/' && (b == '/' || b == '*')
  | _ => false

/-- `check_comment` (parser.py lines 41–44), fuel-indexed: while the data
starts with `//` or `/*`, skip to past the next newline and lstrip.
`data.index("\n")` raises `ValueError` when no newline remains — both
comment styles are skipped to the end of line, `*/` is never sought. -/
def check_commentF : Nat → Data → Except Err Data
  | 0, _ => .error .outOfFuel
  | fuel + 1, data =>
    if isCommentStart data then
      match pyIndex? (· == nl) data with
      | none => .error (.valueError "substring not found")
      | some i => check_commentF fuel (pyLstrip (data.drop (i + 1)))
    else .ok data

/-- The fuel-free `check_comment`. -/
def check_comment (d : Data) : Except Err Data := check_commentF (d.length + 1) d

/-- Python `data.partition("=")` as used on line 73: everything before the
first `=` and everything after it; when there is no `=` the remainder
component is empty. -/
def partitionEq (data : Data) : Data × Data :=
  match pyIndex? (· == '=') data with
  | none => (data, [])
  | some i => (data.take i, data.drop (i + 1))

/-- The `layout_manager_map` dict of `parse` with `.get`: `None` for an
unknown opening character. -/
def layout_manager_map (c : Char) : Option (Layout × Char) :=
  if c = '<' then some (.pack, '>')
  else if c = '{' then some (.grid, '}')
  else if c = '[' then some (.place, ']')
  else none

/-- The attribute `while` loop of `parse` (lines 71–79), fuel-indexed.
While the next character is neither `/` nor the close-tag character:
partition on the first `=`, lstrip, read one value with
`get_attribute_value`, store it under the stripped key (tuple-unpacking a
`None` from the broken list branch raises `TypeError`), lstrip again. -/
def parse_attributesF : Nat → Char → AttrList → Data → Except Err (AttrList × Data)
  | 0, _, _, _ => .error .outOfFuel
  | _ + 1, _, _, [] => .error .indexError
  | fuel + 1, close_tag, attrs, c :: t =>
    if c = '/' ∨ c = close_tag then .ok (attrs, c :: t)
    else
      match get_attribute_value (pyLstrip (partitionEq (c :: t)).2) with
      | .error e => .error e
      | .ok none => .error .typeError
      | .ok (some (v, data3)) =>
        parse_attributesF fuel close_tag
          (dictInsert attrs (pyStrip (partitionEq (c :: t)).1) v) (pyLstrip data3)

/-- The child-collection `while True` loop of `parse` (lines 87–91),
fuel-indexed and generic in the recursive `parse` call `step`: each
iteration either appends a child or, on a closing tag (`step` returns no
node), finishes with the remaining text. -/
def parse_childrenF (step : Data → Except Err (Option Node × Data)) :
    Nat → Data → Except Err (List Node × Data)
  | 0, _ => .error .outOfFuel
  | fuel + 1, data =>
    match step data with
    | .error e => .error e
    | .ok (none, rest) => .ok ([], rest)
    | .ok (some child, rest) =>
      match parse_childrenF step fuel rest with
      | .error e => .error e
      | .ok (cs, r) => .ok (child :: cs, r)

/-- `parse` (parser.py lines 46–91), fuel-indexed.  Mirrors the source
line by line: lstrip and skip comments; `data[0]` selects the dialect via
`layout_manager_map.get` (whose `None` is tuple-unpacked, so an unknown
character raises `TypeError` before the dead `raise ValueError("Invalid
TKXML format")` is reached); a `/` right after the bracket is a closing
tag, returning no node and the text after the first occurrence of the
close character (`str.index` raising `ValueError` when absent); otherwise
scan the name with `[^/}\]> ]+` (`match.end()` on a failed match raises
`AttributeError`), run the attribute loop, and finish as a self-closing
tag (skipping two characters) or by collecting children. -/
def parseF : Nat → Data → Except Err (Option Node × Data)
  | 0, _ => .error .outOfFuel
  | fuel + 1, data0 =>
    match check_comment (pyLstrip data0) with
    | .error e => .error e
    | .ok data =>
      match data with
      | [] => .error .indexError
      | oc :: data1 =>
        match layout_manager_map oc with
        | none => .error .typeError
        | some (lm, close_tag) =>
          match data1 with
          | [] => .error .indexError
          | c :: _ =>
            if c = '/' then
              match pyIndex? (· == close_tag) data1 with
              | none => .error (.valueError "substring not found")
              | some i => .ok (none, data1.drop (i + 1))
            else
              if data1.takeWhile (fun a => !tokenStop a) = [] then .error .attributeError
              else
                match parse_attributesF fuel close_tag []
                    (data1.drop (data1.takeWhile (fun a => !tokenStop a)).length) with
                | .error e => .error e
                | .ok (attrs, data2) =>
                  match data2 with
                  | [] => .error .indexError
                  | c2 :: _ =>
                    if c2 = '/' then
                      .ok (some ⟨data1.takeWhile (fun a => !tokenStop a), attrs, [], lm⟩,
                        data2.drop 2)
                    else
                      match parse_childrenF (parseF fuel) fuel (data2.drop 1) with
                      | .error e => .error e
                      | .ok (children, rest) =>
                        .ok (some ⟨data1.takeWhile (fun a => !tokenStop a), attrs,
                          children, lm⟩, rest)

/-- Fuel sufficient for `parseF` (proved below). -/
def parseFuel (d : Data) : Nat := 2 * d.length + 2

/-- The fuel-free `parse`. -/
def parse (d : Data) : Except Err (Option Node × Data) := parseF (parseFuel d) d

/-- Condition on a quoted interior: scanning it never meets an unescaped
closing quote and never meets a newline, with `prev` the character before
the scan (initially the opening quote itself, matching the regex
lookbehind). -/
def okInterior (q : Char) : Char → Data → Bool
  | _, [] => true
  | prev, c :: cs =>
    !(c == q && !(prev == bslash)) && !(c == nl) && okInterior q c cs

/-- The last character of a list, or `d` when the list is empty: the
character the regex lookbehind inspects just before the closing quote. -/
def lastOr (d : Char) : Data → Char
  | [] => d
  | c :: cs => lastOr c cs

/-- The value an unquoted token receives: `float` coercion first, string
fallback. -/
def tokenValue (tok : Data) : AttrValue :=
  match pyFloat? tok with
  | some x => .num x
  | none => .str tok

/-- Modelled from the spec (claim C6 wording): a token scan that excludes
`/`, the node's close-tag character, `]`, `>` and space — a
dialect-dependent set, used only to compare against the fixed set the
code actually uses. -/
def claimTokenScan (close : Char) (d : Data) : Data :=
  d.takeWhile (fun c => !(c == '/' || c == close || c == ']' || c == '>' || c == ' '))

/-- A character that is neither `/` nor any of the three close-tag
characters: bodies made of such characters parse identically under every
bracket dialect. -/
def neutralChar (c : Char) : Bool :=
  !(c == '/' || c == '>' || c == '}' || c == ']')

/-- One of the three close-tag characters. -/
def isCloseChar (c : Char) : Bool := c == '>' || c == '}' || c == ']'

/-- Replace the layout manager of a returned node, leaving closing-tag
results and errors unchanged (used to state claim C7). -/
def relabel (lm : Layout) : Except Err (Option Node × Data) → Except Err (Option Node × Data)
  | .ok (some n, r) => .ok (some { n with layout_manager := lm }, r)
  | x => x

/-- Replace the final character of a piece of remaining text — the
close-tag character — by another dialect's close-tag character. -/
def retarget (ct : Char) (r : Data) : Data := r.dropLast ++ [ct]

/-- Transport of a `get_attribute_value` result between dialect tails. -/
def mapGavRest (ct : Char) : GavRes → GavRes
  | .ok (some (v, r)) => .ok (some (v, retarget ct r))
  | x => x

/-- Transport of an attribute-loop result between dialect tails. -/
def mapAttrsRest (ct : Char) : Except Err (AttrList × Data) → Except Err (AttrList × Data)
  | .ok (a, r) => .ok (a, retarget ct r)
  | x => x

section Lemmas

/-- Lstripping yields a suffix. -/
theorem pyLstrip_suffix (l : Data) : pyLstrip l <:+ l :=
  List.dropWhile_suffix _

/-- Lstripping does not lengthen. -/
theorem pyLstrip_length_le (l : Data) : (pyLstrip l).length ≤ l.length :=
  (pyLstrip_suffix l).length_le

/-- A comment opener needs at least two characters. -/
theorem isCommentStart_length {d : Data} (h : isCommentStart d = true) :
    2 ≤ d.length := by
  match d with
  | [] => simp [isCommentStart] at h
  | [a] => simp [isCommentStart] at h
  | a :: b :: t => simp

/-- The comment-skipping recursion only ever returns suffixes. -/
theorem check_commentF_suffix :
    ∀ f d r, check_commentF f d = .ok r → r <:+ d := by
  intro f
  induction f with
  | zero => intro d r h; simp [check_commentF] at h
  | succ f ih =>
    intro d r h
    unfold check_commentF at h
    split at h
    · split at h
      · exact absurd h (by simp)
      · exact ((ih _ _ h).trans (pyLstrip_suffix _)).trans (List.drop_suffix _ _)
    · exact Except.ok.inj h ▸ List.suffix_refl r

/-- Fuel-irrelevance and fuel-sufficiency for `check_commentF`: any two
fuels at least `length + 1` agree, and the result is never `outOfFuel`. -/
theorem check_commentF_det :
    ∀ n (d : Data), d.length ≤ n → ∀ f₁ f₂, d.length + 1 ≤ f₁ → d.length + 1 ≤ f₂ →
      check_commentF f₁ d = check_commentF f₂ d ∧
        check_commentF f₁ d ≠ .error .outOfFuel := by
  intro n
  induction n using Nat.strong_induction_on with
  | _ n ih =>
    intro d hd f₁ f₂ h₁ h₂
    match f₁, f₂ with
    | f₁ + 1, f₂ + 1 =>
      unfold check_commentF
      by_cases hc : isCommentStart d
      · simp only [hc, if_true]
        cases hidx : pyIndex? (· == nl) d with
        | none => exact ⟨rfl, by simp⟩
        | some i =>
          have hd2 := isCommentStart_length hc
          have hlen : (pyLstrip (d.drop (i + 1))).length < d.length := by
            have ha := pyLstrip_length_le (d.drop (i + 1))
            have hb := d.length_drop (i + 1)
            omega
          exact ih (pyLstrip (d.drop (i + 1))).length (by omega) _ le_rfl f₁ f₂
            (by omega) (by omega)
      · simp only [hc, if_false]
        exact ⟨rfl, by simp⟩

/-- Any sufficient fuel computes `check_comment`. -/
theorem check_commentF_eq (d : Data) (f : Nat) (h : d.length + 1 ≤ f) :
    check_commentF f d = check_comment d :=
  (check_commentF_det d.length d le_rfl f (d.length + 1) h le_rfl).1

/-- `check_comment` never exhausts its fuel. -/
theorem check_comment_notOof (d : Data) : check_comment d ≠ .error .outOfFuel :=
  (check_commentF_det d.length d le_rfl (d.length + 1) (d.length + 1) le_rfl le_rfl).2

/-- The list loop never produces a `(value, rest)` pair: the Python `[`
branch falls off the end of the function. -/
theorem gav_listLoop_no_pair (step : Data → GavRes) :
    ∀ f d x, gav_listLoop step f d = .ok (some x) → False := by
  intro f
  induction f with
  | zero => intro d x h; simp [gav_listLoop] at h
  | succ f ih =>
    intro d x h
    cases d with
    | nil => simp [gav_listLoop] at h
    | cons c t =>
      unfold gav_listLoop at h
      split at h
      · simp at h
      · split at h
        · simp at h
        · simp at h
        · exact ih _ _ h

/-- When `get_attribute_value` returns a pair, the rest is strictly
shorter than the lstripped input. -/
theorem gavF_pair_length :
    ∀ f d v r, get_attribute_valueF f d = .ok (some (v, r)) →
      r.length + 1 ≤ (pyLstrip d).length := by
  intro f d v r h
  match f with
  | 0 => simp [get_attribute_valueF] at h
  | f + 1 =>
    cases hb : pyLstrip d with
    | nil => simp [get_attribute_valueF, hb] at h
    | cons c rest =>
      simp only [get_attribute_valueF, hb] at h
      by_cases hq : c = squote ∨ c = dquote
      · rw [if_pos hq] at h
        cases hscan : quoteScan c c rest with
        | none => rw [hscan] at h; simp at h
        | some i =>
          rw [hscan] at h
          simp only [Except.ok.injEq, Option.some.injEq, Prod.mk.injEq] at h
          have hr : r = rest.drop (i + 1) := h.2.symm
          subst hr
          have := rest.length_drop (i + 1)
          simp only [hb, List.length_cons]
          omega
      · rw [if_neg hq] at h
        by_cases hbr : c = '['
        · rw [if_pos hbr] at h
          exact (gav_listLoop_no_pair _ _ _ _ h).elim
        · rw [if_neg hbr] at h
          split at h
          · simp at h
          · have htok : (c :: rest).takeWhile (fun a => !tokenStop a) ≠ [] := by
              assumption
            have hpos : 0 < ((c :: rest).takeWhile (fun a => !tokenStop a)).length :=
              List.length_pos.2 htok
            split at h <;>
              · simp only [Except.ok.injEq, Option.some.injEq, Prod.mk.injEq] at h
                have hr : r = (c :: rest).drop
                    ((c :: rest).takeWhile (fun a => !tokenStop a)).length := h.2.symm
                subst hr
                have := (c :: rest).length_drop
                  ((c :: rest).takeWhile (fun a => !tokenStop a)).length
                simp only [hb, List.length_cons] at *
                omega

/-- When `get_attribute_value` returns a pair, the rest is a suffix of
the input. -/
theorem gavF_pair_suffix :
    ∀ f d v r, get_attribute_valueF f d = .ok (some (v, r)) → r <:+ d := by
  intro f d v r h
  match f with
  | 0 => simp [get_attribute_valueF] at h
  | f + 1 =>
    cases hb : pyLstrip d with
    | nil => simp [get_attribute_valueF, hb] at h
    | cons c rest =>
      simp only [get_attribute_valueF, hb] at h
      have hsub : c :: rest <:+ d := hb ▸ pyLstrip_suffix d
      have hrest : rest <:+ d := (List.suffix_cons c rest).trans hsub
      by_cases hq : c = squote ∨ c = dquote
      · rw [if_pos hq] at h
        cases hscan : quoteScan c c rest with
        | none => rw [hscan] at h; simp at h
        | some i =>
          rw [hscan] at h
          simp only [Except.ok.injEq, Option.some.injEq, Prod.mk.injEq] at h
          exact h.2 ▸ (List.drop_suffix _ _).trans hrest
      · rw [if_neg hq] at h
        by_cases hbr : c = '['
        · rw [if_pos hbr] at h
          exact (gav_listLoop_no_pair _ _ _ _ h).elim
        · rw [if_neg hbr] at h
          split at h
          · simp at h
          · split at h <;>
              · simp only [Except.ok.injEq, Option.some.injEq, Prod.mk.injEq] at h
                exact h.2 ▸ (List.drop_suffix _ _).trans hsub

/-- Determinism and fuel-sufficiency of the list loop, generic in the
element parser `step`. -/
theorem gav_listLoop_det (step₁ step₂ : Data → GavRes) (N : Nat)
    (hstep : ∀ d : Data, d.length ≤ N → step₁ d = step₂ d)
    (hpair : ∀ (d : Data) v r, step₁ d = .ok (some (v, r)) → r.length + 1 ≤ d.length)
    (hoof : ∀ d : Data, d.length ≤ N → step₁ d ≠ .error .outOfFuel) :
    ∀ n (d : Data), d.length ≤ n → d.length ≤ N →
      ∀ f₁ f₂, d.length + 1 ≤ f₁ → d.length + 1 ≤ f₂ →
        gav_listLoop step₁ f₁ d = gav_listLoop step₂ f₂ d ∧
          gav_listLoop step₁ f₁ d ≠ .error .outOfFuel := by
  intro n
  induction n using Nat.strong_induction_on with
  | _ n ih =>
    intro d hn hN f₁ f₂ h₁ h₂
    match f₁, f₂ with
    | f₁ + 1, f₂ + 1 =>
      cases d with
      | nil => exact ⟨rfl, by simp [gav_listLoop]⟩
      | cons c t =>
        unfold gav_listLoop
        by_cases hcl : c = ']'
        · rw [if_pos hcl, if_pos hcl]
          exact ⟨rfl, by simp⟩
        · rw [if_neg hcl, if_neg hcl]
          rw [← hstep _ hN]
          cases hs : step₁ (c :: t) with
          | error e =>
            refine ⟨rfl, ?_⟩
            intro hcon
            exact hoof _ hN (hs.trans (Except.error.inj hcon ▸ rfl))
          | ok o =>
            cases o with
            | none => exact ⟨rfl, by simp⟩
            | some p =>
              obtain ⟨v, r⟩ := p
              have hlen := hpair _ _ _ hs
              simp only [List.length_cons] at hlen hn hN h₁ h₂
              exact ih r.length (by omega) r le_rfl (by omega) f₁ f₂ (by omega) (by omega)

/-- Determinism and fuel-sufficiency for `get_attribute_valueF`: any two
fuels at least `2·length + 2` agree and never exhaust. -/
theorem gavF_det :
    ∀ n (d : Data), d.length ≤ n →
      ∀ f₁ f₂, 2 * d.length + 2 ≤ f₁ → 2 * d.length + 2 ≤ f₂ →
        get_attribute_valueF f₁ d = get_attribute_valueF f₂ d ∧
          get_attribute_valueF f₁ d ≠ .error .outOfFuel := by
  intro n
  induction n using Nat.strong_induction_on with
  | _ n ih =>
    intro d hn f₁ f₂ h₁ h₂
    match f₁, f₂ with
    | f₁ + 1, f₂ + 1 =>
      unfold get_attribute_valueF
      have hlenS := pyLstrip_length_le d
      cases hb : pyLstrip d with
      | nil => exact ⟨rfl, by simp⟩
      | cons c rest =>
        simp only []
        by_cases hq : c = squote ∨ c = dquote
        · rw [if_pos hq, if_pos hq]
          cases quoteScan c c rest with
          | none => exact ⟨rfl, by simp⟩
          | some i => exact ⟨rfl, by simp⟩
        · rw [if_neg hq, if_neg hq]
          by_cases hbr : c = '['
          · rw [if_pos hbr, if_pos hbr]
            have hrest : rest.length + 1 ≤ d.length := by
              have : (pyLstrip d).length ≤ d.length := hlenS
              rw [hb] at this
              simpa using this
            refine gav_listLoop_det (get_attribute_valueF f₁) (get_attribute_valueF f₂)
              rest.length ?_ ?_ ?_ rest.length rest le_rfl le_rfl f₁ f₂ (by omega) (by omega)
            · intro d' hd'
              exact (ih d'.length (by omega) d' le_rfl f₁ f₂ (by omega) (by omega)).1
            · intro d' v r hs
              exact le_trans (gavF_pair_length _ _ _ _ hs) (pyLstrip_length_le d')
            · intro d' hd'
              exact (ih d'.length (by omega) d' le_rfl f₁ f₂ (by omega) (by omega)).2
          · rw [if_neg hbr, if_neg hbr]
            split
            · exact ⟨rfl, by simp⟩
            · cases pyFloat? ((c :: rest).takeWhile (fun a => !tokenStop a)) with
              | some x => exact ⟨rfl, by simp⟩
              | none => exact ⟨rfl, by simp⟩

/-- Any sufficient fuel computes `get_attribute_value`. -/
theorem get_attribute_valueF_eq (d : Data) (f : Nat) (h : gavFuel d ≤ f) :
    get_attribute_valueF f d = get_attribute_value d :=
  (gavF_det d.length d le_rfl f (gavFuel d) h le_rfl).1

/-- `get_attribute_value` never exhausts its fuel. -/
theorem get_attribute_value_notOof (d : Data) :
    get_attribute_value d ≠ .error .outOfFuel :=
  (gavF_det d.length d le_rfl (gavFuel d) (gavFuel d) le_rfl le_rfl).2

/-- Wrapper form of the pair-length bound. -/
theorem get_attribute_value_pair_length {d : Data} {v : AttrValue} {r : Data}
    (h : get_attribute_value d = .ok (some (v, r))) :
    r.length + 1 ≤ (pyLstrip d).length :=
  gavF_pair_length _ _ _ _ h

/-- Wrapper form of the pair-suffix property. -/
theorem get_attribute_value_pair_suffix {d : Data} {v : AttrValue} {r : Data}
    (h : get_attribute_value d = .ok (some (v, r))) : r <:+ d :=
  gavF_pair_suffix _ _ _ _ h

/-- A takeWhile is never longer than its input. -/
theorem takeWhile_length_le (p : Char → Bool) (l : Data) :
    (l.takeWhile p).length ≤ l.length :=
  (List.takeWhile_prefix p).length_le

/-- The remainder of a partition is no longer than the input. -/
theorem partitionEq_snd_le (d : Data) : (partitionEq d).2.length ≤ d.length := by
  unfold partitionEq
  cases pyIndex? (· == '=') d with
  | none => simp
  | some i =>
    have := d.length_drop (i + 1)
    simp only []
    omega

/-- The remainder of a partition is a suffix of the input. -/
theorem partitionEq_snd_suffix (d : Data) : (partitionEq d).2 <:+ d := by
  unfold partitionEq
  cases pyIndex? (· == '=') d with
  | none => simp
  | some i => exact List.drop_suffix _ _

/-- The attribute loop never lengthens its text. -/
theorem parse_attributesF_rest_le :
    ∀ f ct a d a' r, parse_attributesF f ct a d = .ok (a', r) →
      r.length ≤ d.length := by
  intro f
  induction f with
  | zero => intro ct a d a' r h; simp [parse_attributesF] at h
  | succ f ih =>
    intro ct a d a' r h
    cases d with
    | nil => simp [parse_attributesF] at h
    | cons c t =>
      simp only [parse_attributesF] at h
      split at h
      · simp only [Except.ok.injEq, Prod.mk.injEq] at h
        exact h.2 ▸ le_rfl
      · split at h
        · simp at h
        · simp at h
        · rename_i v data3 hgav
          have h1 := ih _ _ _ _ _ h
          have h2 := get_attribute_value_pair_length hgav
          have h3 := pyLstrip_length_le (partitionEq (c :: t)).2
          have h4 := partitionEq_snd_le (c :: t)
          have h5 := pyLstrip_length_le data3
          have h6 := pyLstrip_length_le (pyLstrip (partitionEq (c :: t)).2)
          omega

/-- The attribute loop exits only on `/` or the close-tag character. -/
theorem parse_attributesF_exit :
    ∀ f ct a d a' r, parse_attributesF f ct a d = .ok (a', r) →
      ∃ c2 t2, r = c2 :: t2 ∧ (c2 = '/' ∨ c2 = ct) := by
  intro f
  induction f with
  | zero => intro ct a d a' r h; simp [parse_attributesF] at h
  | succ f ih =>
    intro ct a d a' r h
    cases d with
    | nil => simp [parse_attributesF] at h
    | cons c t =>
      simp only [parse_attributesF] at h
      split at h
      · simp only [Except.ok.injEq, Prod.mk.injEq] at h
        exact ⟨c, t, h.2.symm, by assumption⟩
      · split at h
        · simp at h
        · simp at h
        · exact ih _ _ _ _ _ h

/-- The attribute loop returns suffixes. -/
theorem parse_attributesF_suffix :
    ∀ f ct a d a' r, parse_attributesF f ct a d = .ok (a', r) → r <:+ d := by
  intro f
  induction f with
  | zero => intro ct a d a' r h; simp [parse_attributesF] at h
  | succ f ih =>
    intro ct a d a' r h
    cases d with
    | nil => simp [parse_attributesF] at h
    | cons c t =>
      simp only [parse_attributesF] at h
      split at h
      · simp only [Except.ok.injEq, Prod.mk.injEq] at h
        exact h.2 ▸ List.suffix_refl _
      · split at h
        · simp at h
        · simp at h
        · rename_i v data3 hgav
          have h1 := ih _ _ _ _ _ h
          have h2 := get_attribute_value_pair_suffix hgav
          exact ((((h1.trans (pyLstrip_suffix data3)).trans h2).trans
            (pyLstrip_suffix _)).trans (partitionEq_snd_suffix (c :: t)))

/-- Determinism and fuel-sufficiency of the attribute loop. -/
theorem parse_attributesF_det :
    ∀ n ct a (d : Data), d.length ≤ n →
      ∀ f₁ f₂, d.length + 1 ≤ f₁ → d.length + 1 ≤ f₂ →
        parse_attributesF f₁ ct a d = parse_attributesF f₂ ct a d ∧
          parse_attributesF f₁ ct a d ≠ .error .outOfFuel := by
  intro n
  induction n using Nat.strong_induction_on with
  | _ n ih =>
    intro ct a d hn f₁ f₂ h₁ h₂
    match f₁, f₂ with
    | f₁ + 1, f₂ + 1 =>
      cases d with
      | nil => exact ⟨rfl, by simp [parse_attributesF]⟩
      | cons c t =>
        unfold parse_attributesF
        by_cases hex : c = '/' ∨ c = ct
        · rw [if_pos hex, if_pos hex]
          exact ⟨rfl, by simp⟩
        · rw [if_neg hex, if_neg hex]
          cases hgav : get_attribute_value (pyLstrip (partitionEq (c :: t)).2) with
          | error e =>
            refine ⟨rfl, ?_⟩
            intro hcon
            exact get_attribute_value_notOof _
              (hgav.trans (Except.error.inj hcon ▸ rfl))
          | ok o =>
            cases o with
            | none => exact ⟨rfl, by simp⟩
            | some p =>
              obtain ⟨v, data3⟩ := p
              have h2 := get_attribute_value_pair_length hgav
              have h3 := pyLstrip_length_le (partitionEq (c :: t)).2
              have h4 := partitionEq_snd_le (c :: t)
              have h5 := pyLstrip_length_le data3
              have h6 := pyLstrip_length_le (pyLstrip (partitionEq (c :: t)).2)
              have hct : (c :: t).length = t.length + 1 := by simp
              exact ih (pyLstrip data3).length (by omega) ct _ _ le_rfl f₁ f₂
                (by omega) (by omega)

/-- The child loop's remaining text shrinks by at least two characters,
provided the step function's does. -/
theorem parse_childrenF_rest_le (step : Data → Except Err (Option Node × Data))
    (hrest : ∀ d x r, step d = .ok (x, r) → r.length + 2 ≤ d.length) :
    ∀ f d cs r, parse_childrenF step f d = .ok (cs, r) → r.length + 2 ≤ d.length := by
  intro f
  induction f with
  | zero => intro d cs r h; simp [parse_childrenF] at h
  | succ f ih =>
    intro d cs r h
    unfold parse_childrenF at h
    split at h
    · simp at h
    · rename_i rest hstep0
      simp only [Except.ok.injEq, Prod.mk.injEq] at h
      exact h.2 ▸ hrest _ _ _ hstep0
    · rename_i child rest hstep0
      split at h
      · simp at h
      · rename_i cs2 r2 hrec
        simp only [Except.ok.injEq, Prod.mk.injEq] at h
        have := ih _ _ _ hrec
        have := hrest _ _ _ hstep0
        have hr : r = r2 := h.2.symm
        subst hr
        omega

/-- The child loop returns suffixes, provided the step function does. -/
theorem parse_childrenF_suffix (step : Data → Except Err (Option Node × Data))
    (hsuf : ∀ d x r, step d = .ok (x, r) → r <:+ d) :
    ∀ f d cs r, parse_childrenF step f d = .ok (cs, r) → r <:+ d := by
  intro f
  induction f with
  | zero => intro d cs r h; simp [parse_childrenF] at h
  | succ f ih =>
    intro d cs r h
    unfold parse_childrenF at h
    split at h
    · simp at h
    · rename_i rest hstep0
      simp only [Except.ok.injEq, Prod.mk.injEq] at h
      exact h.2 ▸ hsuf _ _ _ hstep0
    · rename_i child rest hstep0
      split at h
      · simp at h
      · rename_i cs2 r2 hrec
        simp only [Except.ok.injEq, Prod.mk.injEq] at h
        exact h.2 ▸ ((ih _ _ _ hrec).trans (hsuf _ _ _ hstep0))

/-- Determinism and fuel-sufficiency of the child loop, generic in the
step function. -/
theorem parse_childrenF_det (step₁ step₂ : Data → Except Err (Option Node × Data))
    (N : Nat)
    (hstep : ∀ d : Data, d.length ≤ N → step₁ d = step₂ d)
    (hrest : ∀ (d : Data) x r, step₁ d = .ok (x, r) → r.length + 2 ≤ d.length)
    (hoof : ∀ d : Data, d.length ≤ N → step₁ d ≠ .error .outOfFuel) :
    ∀ n (d : Data), d.length ≤ n → d.length ≤ N →
      ∀ f₁ f₂, d.length + 1 ≤ f₁ → d.length + 1 ≤ f₂ →
        parse_childrenF step₁ f₁ d = parse_childrenF step₂ f₂ d ∧
          parse_childrenF step₁ f₁ d ≠ .error .outOfFuel := by
  intro n
  induction n using Nat.strong_induction_on with
  | _ n ih =>
    intro d hn hN f₁ f₂ h₁ h₂
    match f₁, f₂ with
    | f₁ + 1, f₂ + 1 =>
      unfold parse_childrenF
      rw [← hstep d hN]
      cases hs : step₁ d with
      | error e =>
        refine ⟨rfl, ?_⟩
        intro hcon
        exact hoof _ hN (hs.trans (Except.error.inj hcon ▸ rfl))
      | ok p =>
        obtain ⟨x, rest⟩ := p
        cases x with
        | none => exact ⟨rfl, by simp⟩
        | some child =>
          have hlen := hrest _ _ _ hs
          obtain ⟨heq, hnoof⟩ := ih rest.length (by omega) rest le_rfl (by omega)
            f₁ f₂ (by omega) (by omega)
          simp only []
          rw [heq]
          cases hrec : parse_childrenF step₂ f₂ rest with
          | error e =>
            refine ⟨rfl, ?_⟩
            intro hcon
            exact hnoof ((heq.trans hrec).trans (Except.error.inj hcon ▸ rfl))
          | ok q => exact ⟨rfl, by simp⟩

/-- `parse` always consumes at least two characters when it returns. -/
theorem parseF_rest_le :
    ∀ f d x r, parseF f d = .ok (x, r) → r.length + 2 ≤ d.length := by
  intro f
  induction f with
  | zero => intro d x r h; simp [parseF] at h
  | succ f ih =>
    intro d x r h
    simp only [parseF] at h
    cases hcc : check_comment (pyLstrip d) with
    | error e => rw [hcc] at h; simp at h
    | ok data =>
      rw [hcc] at h
      simp only [] at h
      have hdlen : data.length ≤ d.length :=
        ((check_commentF_suffix _ _ _ hcc).trans (pyLstrip_suffix d)).length_le
      cases data with
      | nil => simp at h
      | cons oc data1 =>
        simp only [] at h
        cases hmap : layout_manager_map oc with
        | none => rw [hmap] at h; simp at h
        | some p =>
          obtain ⟨lm, ct⟩ := p
          rw [hmap] at h
          simp only [] at h
          cases data1 with
          | nil => simp at h
          | cons c t1 =>
            simp only [] at h
            have h9 : (oc :: c :: t1).length = t1.length + 2 := by simp
            by_cases hsl : c = '/'
            · rw [if_pos hsl] at h
              cases hidx : pyIndex? (· == ct) (c :: t1) with
              | none => rw [hidx] at h; simp at h
              | some i =>
                rw [hidx] at h
                simp only [Except.ok.injEq, Prod.mk.injEq] at h
                have hr : r = (c :: t1).drop (i + 1) := h.2.symm
                subst hr
                have hdr := (c :: t1).length_drop (i + 1)
                have h8 : (c :: t1).length = t1.length + 1 := by simp
                omega
            · rw [if_neg hsl] at h
              by_cases hname : (c :: t1).takeWhile (fun a => !tokenStop a) = []
              · rw [if_pos hname] at h; simp at h
              · rw [if_neg hname] at h
                cases hattrs : parse_attributesF f ct []
                    ((c :: t1).drop ((c :: t1).takeWhile (fun a => !tokenStop a)).length) with
                | error e => rw [hattrs] at h; simp at h
                | ok q =>
                  obtain ⟨attrs, data2⟩ := q
                  rw [hattrs] at h
                  simp only [] at h
                  have hn1 : 0 < ((c :: t1).takeWhile (fun a => !tokenStop a)).length :=
                    List.length_pos.2 hname
                  have ha1 := parse_attributesF_rest_le _ _ _ _ _ _ hattrs
                  have ha2 := (c :: t1).length_drop
                    ((c :: t1).takeWhile (fun a => !tokenStop a)).length
                  have h8 : (c :: t1).length = t1.length + 1 := by simp
                  cases data2 with
                  | nil => simp at h
                  | cons c2 t2 =>
                    simp only [] at h
                    have h10 : (c2 :: t2).length = t2.length + 1 := by simp
                    by_cases hsc : c2 = '/'
                    · rw [if_pos hsc] at h
                      simp only [Except.ok.injEq, Prod.mk.injEq] at h
                      have hr : r = (c2 :: t2).drop 2 := h.2.symm
                      subst hr
                      have hdr := (c2 :: t2).length_drop 2
                      omega
                    · rw [if_neg hsc] at h
                      cases hch : parse_childrenF (parseF f) f ((c2 :: t2).drop 1) with
                      | error e => rw [hch] at h; simp at h
                      | ok q2 =>
                        obtain ⟨children, rest⟩ := q2
                        rw [hch] at h
                        simp only [Except.ok.injEq, Prod.mk.injEq] at h
                        have hr : r = rest := h.2.symm
                        subst hr
                        have hc1 := parse_childrenF_rest_le (parseF f) ih _ _ _ _ hch
                        have hdr := (c2 :: t2).length_drop 1
                        omega

/-- `parse` only ever returns a suffix of its input. -/
theorem parseF_suffix :
    ∀ f d x r, parseF f d = .ok (x, r) → r <:+ d := by
  intro f
  induction f with
  | zero => intro d x r h; simp [parseF] at h
  | succ f ih =>
    intro d x r h
    simp only [parseF] at h
    cases hcc : check_comment (pyLstrip d) with
    | error e => rw [hcc] at h; simp at h
    | ok data =>
      rw [hcc] at h
      simp only [] at h
      have hdsuf : data <:+ d :=
        (check_commentF_suffix _ _ _ hcc).trans (pyLstrip_suffix d)
      cases data with
      | nil => simp at h
      | cons oc data1 =>
        simp only [] at h
        have hd1suf : data1 <:+ d := (List.suffix_cons oc data1).trans hdsuf
        cases hmap : layout_manager_map oc with
        | none => rw [hmap] at h; simp at h
        | some p =>
          obtain ⟨lm, ct⟩ := p
          rw [hmap] at h
          simp only [] at h
          cases data1 with
          | nil => simp at h
          | cons c t1 =>
            simp only [] at h
            by_cases hsl : c = '/'
            · rw [if_pos hsl] at h
              cases hidx : pyIndex? (· == ct) (c :: t1) with
              | none => rw [hidx] at h; simp at h
              | some i =>
                rw [hidx] at h
                simp only [Except.ok.injEq, Prod.mk.injEq] at h
                exact h.2 ▸ (List.drop_suffix _ _).trans hd1suf
            · rw [if_neg hsl] at h
              by_cases hname : (c :: t1).takeWhile (fun a => !tokenStop a) = []
              · rw [if_pos hname] at h; simp at h
              · rw [if_neg hname] at h
                cases hattrs : parse_attributesF f ct []
                    ((c :: t1).drop ((c :: t1).takeWhile (fun a => !tokenStop a)).length) with
                | error e => rw [hattrs] at h; simp at h
                | ok q =>
                  obtain ⟨attrs, data2⟩ := q
                  rw [hattrs] at h
                  simp only [] at h
                  have hd2suf : data2 <:+ d :=
                    ((parse_attributesF_suffix _ _ _ _ _ _ hattrs).trans
                      (List.drop_suffix _ _)).trans hd1suf
                  cases data2 with
                  | nil => simp at h
                  | cons c2 t2 =>
                    simp only [] at h
                    by_cases hsc : c2 = '/'
                    · rw [if_pos hsc] at h
                      simp only [Except.ok.injEq, Prod.mk.injEq] at h
                      exact h.2 ▸ (List.drop_suffix _ _).trans hd2suf
                    · rw [if_neg hsc] at h
                      cases hch : parse_childrenF (parseF f) f ((c2 :: t2).drop 1) with
                      | error e => rw [hch] at h; simp at h
                      | ok q2 =>
                        obtain ⟨children, rest⟩ := q2
                        rw [hch] at h
                        simp only [Except.ok.injEq, Prod.mk.injEq] at h
                        exact h.2 ▸ ((parse_childrenF_suffix (parseF f) ih _ _ _ _
                          hch).trans (List.drop_suffix _ _)).trans hd2suf

/-- Determinism and fuel-sufficiency for `parseF`: any two fuels at least
`2·length + 2` agree and never exhaust. -/
theorem parseF_det :
    ∀ n (d : Data), d.length ≤ n →
      ∀ f₁ f₂, 2 * d.length + 2 ≤ f₁ → 2 * d.length + 2 ≤ f₂ →
        parseF f₁ d = parseF f₂ d ∧ parseF f₁ d ≠ .error .outOfFuel := by
  intro n
  induction n using Nat.strong_induction_on with
  | _ n ih =>
    intro d hn f₁ f₂ h₁ h₂
    match f₁, f₂ with
    | f₁ + 1, f₂ + 1 =>
      unfold parseF
      cases hcc : check_comment (pyLstrip d) with
      | error e =>
        refine ⟨rfl, ?_⟩
        intro hcon
        exact check_comment_notOof _ (hcc.trans (Except.error.inj hcon ▸ rfl))
      | ok data =>
        simp only []
        have hdlen : data.length ≤ d.length :=
          ((check_commentF_suffix _ _ _ hcc).trans (pyLstrip_suffix d)).length_le
        cases data with
        | nil => exact ⟨rfl, by simp⟩
        | cons oc data1 =>
          simp only []
          cases hmap : layout_manager_map oc with
          | none => exact ⟨rfl, by simp⟩
          | some p =>
            obtain ⟨lm, ct⟩ := p
            simp only []
            cases data1 with
            | nil => exact ⟨rfl, by simp⟩
            | cons c t1 =>
              simp only []
              have h9 : (oc :: c :: t1).length = t1.length + 2 := by simp
              by_cases hsl : c = '/'
              · rw [if_pos hsl, if_pos hsl]
                cases hidx : pyIndex? (· == ct) (c :: t1) with
                | none => exact ⟨rfl, by simp⟩
                | some i => exact ⟨rfl, by simp⟩
              · rw [if_neg hsl, if_neg hsl]
                by_cases hname : (c :: t1).takeWhile (fun a => !tokenStop a) = []
                · rw [if_pos hname, if_pos hname]
                  exact ⟨rfl, by simp⟩
                · rw [if_neg hname, if_neg hname]
                  have hn1 : 0 < ((c :: t1).takeWhile (fun a => !tokenStop a)).length :=
                    List.length_pos.2 hname
                  have ha2 := (c :: t1).length_drop
                    ((c :: t1).takeWhile (fun a => !tokenStop a)).length
                  have h8 : (c :: t1).length = t1.length + 1 := by simp
                  obtain ⟨haeq, hanoof⟩ := parse_attributesF_det
                    ((c :: t1).drop ((c :: t1).takeWhile (fun a => !tokenStop a)).length).length
                    ct []
                    ((c :: t1).drop ((c :: t1).takeWhile (fun a => !tokenStop a)).length)
                    le_rfl f₁ f₂ (by omega) (by omega)
                  rw [haeq]
                  cases hattrs : parse_attributesF f₂ ct []
                      ((c :: t1).drop ((c :: t1).takeWhile (fun a => !tokenStop a)).length) with
                  | error e =>
                    refine ⟨rfl, ?_⟩
                    intro hcon
                    exact hanoof ((haeq.trans hattrs).trans (Except.error.inj hcon ▸ rfl))
                  | ok q =>
                    obtain ⟨attrs, data2⟩ := q
                    simp only []
                    cases data2 with
                    | nil => exact ⟨rfl, by simp⟩
                    | cons c2 t2 =>
                      simp only []
                      have h10 : (c2 :: t2).length = t2.length + 1 := by simp
                      have ha1 := parse_attributesF_rest_le _ _ _ _ _ _ hattrs
                      by_cases hsc : c2 = '/'
                      · rw [if_pos hsc, if_pos hsc]
                        exact ⟨rfl, by simp⟩
                      · rw [if_neg hsc, if_neg hsc]
                        simp only [List.drop_succ_cons, List.drop_zero]
                        obtain ⟨hceq, hcnoof⟩ := parse_childrenF_det (parseF f₁) (parseF f₂)
                          t2.length
                          (fun d' hd' =>
                            (ih d'.length (by omega) d' le_rfl f₁ f₂ (by omega) (by omega)).1)
                          (parseF_rest_le f₁)
                          (fun d' hd' =>
                            (ih d'.length (by omega) d' le_rfl f₁ f₁ (by omega) (by omega)).2)
                          t2.length t2 le_rfl le_rfl f₁ f₂ (by omega) (by omega)
                        rw [hceq]
                        cases hrec : parse_childrenF (parseF f₂) f₂ t2 with
                        | error e =>
                          refine ⟨rfl, ?_⟩
                          intro hcon
                          exact hcnoof ((hceq.trans hrec).trans (Except.error.inj hcon ▸ rfl))
                        | ok q2 => exact ⟨rfl, by simp⟩

/-- Any sufficient fuel computes `parse`. -/
theorem parseF_eq (d : Data) (f : Nat) (h : parseFuel d ≤ f) :
    parseF f d = parse d :=
  (parseF_det d.length d le_rfl f (parseFuel d) h le_rfl).1

/-- `parse` never exhausts its fuel. -/
theorem parse_notOof (d : Data) : parse d ≠ .error .outOfFuel :=
  (parseF_det d.length d le_rfl (parseFuel d) (parseFuel d) le_rfl le_rfl).2

/-- Wrapper form of the suffix property. -/
theorem parse_suffix {d : Data} {x : Option Node} {r : Data}
    (h : parse d = .ok (x, r)) : r <:+ d :=
  parseF_suffix _ _ _ _ h

/-- Wrapper form of the consumption bound. -/
theorem parse_rest_le {d : Data} {x : Option Node} {r : Data}
    (h : parse d = .ok (x, r)) : r.length + 2 ≤ d.length :=
  parseF_rest_le _ _ _ _ h

/-- Lstrip does nothing before a non-space character. -/
theorem pyLstrip_cons_not_space {c : Char} (l : Data) (h : isPySpace c = false) :
    pyLstrip (c :: l) = c :: l := by
  simp [pyLstrip, List.dropWhile_cons, h]

/-- The head surviving an lstrip is not a space. -/
theorem pyLstrip_head_not_space :
    ∀ (l : Data) {c : Char} {t : Data}, pyLstrip l = c :: t → isPySpace c = false := by
  intro l
  induction l with
  | nil => intro c t h; simp [pyLstrip] at h
  | cons a as ih =>
    intro c t h
    by_cases ha : isPySpace a
    · rw [pyLstrip, List.dropWhile_cons, if_pos (by simp [ha])] at h
      exact ih h
    · rw [pyLstrip_cons_not_space as (by simpa using ha)] at h
      cases h
      simpa using ha

/-- Lstrip distributes over an append whose right part starts with a
non-space character. -/
theorem pyLstrip_append_cons {c : Char} (xs ys : Data) (h : isPySpace c = false) :
    pyLstrip (xs ++ c :: ys) = pyLstrip xs ++ c :: ys := by
  induction xs with
  | nil => simpa [pyLstrip] using pyLstrip_cons_not_space ys h
  | cons a as ih =>
    by_cases ha : isPySpace a
    · simpa [pyLstrip, List.dropWhile_cons, ha] using ih
    · simp [pyLstrip, List.dropWhile_cons, ha]

/-- A takeWhile never runs past a failing character. -/
theorem takeWhile_append_stop {p : Char → Bool} {c : Char} (xs ys : Data)
    (h : p c = false) :
    (xs ++ c :: ys).takeWhile p = xs.takeWhile p := by
  induction xs with
  | nil => simp [List.takeWhile_cons, h]
  | cons a as ih =>
    by_cases ha : p a
    · simp [List.takeWhile_cons, ha, ih]
    · simp [List.takeWhile_cons, ha]

/-- Index search skips an appended part that contains no hit. -/
theorem pyIndex?_append_none {p : Char → Bool} (xs : Data) {ys : Data}
    (h : pyIndex? p ys = none) :
    pyIndex? p (xs ++ ys) = pyIndex? p xs := by
  induction xs with
  | nil => simpa using h
  | cons a as ih =>
    by_cases ha : p a
    · simp [pyIndex?, ha]
    · simp [pyIndex?, ha, ih]

/-- A found index is inside the list. -/
theorem pyIndex?_some_lt {p : Char → Bool} :
    ∀ (xs : Data) {i : Nat}, pyIndex? p xs = some i → i < xs.length := by
  intro xs
  induction xs with
  | nil => intro i h; simp [pyIndex?] at h
  | cons a as ih =>
    intro i h
    simp only [pyIndex?] at h
    by_cases ha : p a
    · rw [if_pos ha] at h
      cases h
      simp
    · rw [if_neg ha] at h
      cases hr : pyIndex? p as with
      | none => rw [hr] at h; simp at h
      | some j =>
        rw [hr] at h
        simp only [Option.map_some', Option.some.injEq] at h
        have := ih hr
        simp only [List.length_cons]
        omega

/-- The quote scan ignores two appended characters that are neither the
quote nor a newline, as long as the scan succeeds or fails before them. -/
theorem quoteScan_append_two {q a b : Char} (ha : a ≠ q) (ha2 : a ≠ nl)
    (hb : b ≠ q) (hb2 : b ≠ nl) :
    ∀ (xs : Data) (prev : Char),
      quoteScan q prev (xs ++ [a, b]) = quoteScan q prev xs := by
  intro xs
  induction xs with
  | nil =>
    intro prev
    simp only [List.nil_append, quoteScan]
    rw [if_neg (fun hc => ha hc.1), if_neg ha2,
      if_neg (fun hc => hb hc.1), if_neg hb2]
    rfl
  | cons c cs ih =>
    intro prev
    simp only [List.cons_append, quoteScan]
    by_cases h1 : c = q ∧ prev ≠ bslash
    · rw [if_pos h1, if_pos h1]
    · rw [if_neg h1, if_neg h1]
      by_cases h2 : c = nl
      · rw [if_pos h2, if_pos h2]
      · rw [if_neg h2, if_neg h2]
        simp only [List.append_eq]
        rw [ih c]

/-- A found quote is inside the scanned text. -/
theorem quoteScan_some_lt {q : Char} :
    ∀ (xs : Data) (prev : Char) {i : Nat},
      quoteScan q prev xs = some i → i < xs.length := by
  intro xs
  induction xs with
  | nil => intro prev i h; simp [quoteScan] at h
  | cons c cs ih =>
    intro prev i h
    simp only [quoteScan] at h
    by_cases h1 : c = q ∧ prev ≠ bslash
    · rw [if_pos h1] at h
      cases h
      simp
    · rw [if_neg h1] at h
      by_cases h2 : c = nl
      · rw [if_pos h2] at h; simp at h
      · rw [if_neg h2] at h
        cases hr : quoteScan q c cs with
        | none => rw [hr] at h; simp at h
        | some j =>
          rw [hr] at h
          simp only [Option.map_some', Option.some.injEq] at h
          have := ih c hr
          simp only [List.length_cons]
          omega

/-- The regex stops exactly at the closing quote after a well-formed
interior: no unescaped quote and no newline inside, and no backslash
immediately before the close. -/
theorem quoteScan_exact {q : Char} (rest : Data) :
    ∀ (interior : Data) (prev : Char),
      okInterior q prev interior = true →
      lastOr prev interior ≠ bslash →
      quoteScan q prev (interior ++ q :: rest) = some interior.length := by
  intro interior
  induction interior with
  | nil =>
    intro prev hok hlast
    simp only [lastOr] at hlast
    simp [quoteScan, hlast]
  | cons c cs ih =>
    intro prev hok hlast
    simp only [okInterior, Bool.and_eq_true, Bool.not_eq_true'] at hok
    obtain ⟨⟨h1, h2⟩, h3⟩ := hok
    simp only [List.cons_append, quoteScan]
    rw [if_neg (by
      intro hcon
      rw [Bool.and_eq_false_iff] at h1
      rcases h1 with h1 | h1
      · rw [hcon.1] at h1
        simp at h1
      · exact hcon.2 (by simpa using h1))]
    rw [if_neg (show ¬c = nl from fun hc => by rw [hc] at h2; simp at h2)]
    simp only [List.append_eq]
    rw [ih c h3 (show lastOr c cs ≠ bslash from hlast)]
    simp

/-- The three dialects of `layout_manager_map`. -/
theorem layout_manager_map_cases {oc : Char} {lm : Layout} {ct : Char}
    (h : layout_manager_map oc = some (lm, ct)) :
    (oc = '<' ∧ lm = .pack ∧ ct = '>') ∨ (oc = '{' ∧ lm = .grid ∧ ct = '}') ∨
      (oc = '[' ∧ lm = .place ∧ ct = ']') := by
  unfold layout_manager_map at h
  split at h
  · cases h
    exact Or.inl ⟨by assumption, rfl, rfl⟩
  · split at h
    · cases h
      exact Or.inr (Or.inl ⟨by assumption, rfl, rfl⟩)
    · split at h
      · cases h
        exact Or.inr (Or.inr ⟨by assumption, rfl, rfl⟩)
      · simp at h

/-- A unit starting with anything but `/` is not a comment. -/
theorem isCommentStart_cons {a : Char} (l : Data) (h : a ≠ '/') :
    isCommentStart (a :: l) = false := by
  cases l with
  | nil => rfl
  | cons b t => simp [isCommentStart, h]

/-- `check_comment` is the identity on non-comments. -/
theorem check_comment_not_comment {d : Data} (h : isCommentStart d = false) :
    check_comment d = .ok d := by
  show check_commentF (d.length + 1) d = .ok d
  unfold check_commentF
  simp [h]

/-- Unfolding helper for the fuel-free `get_attribute_value`. -/
theorem get_attribute_value_succ (d : Data) :
    get_attribute_value d = get_attribute_valueF (2 * d.length + 1 + 1) d := rfl

/-- Unfolding helper for the fuel-free `parse`. -/
theorem parse_succ (d : Data) :
    parse d = parseF (2 * d.length + 1 + 1) d := rfl

/-- What a neutral character is not. -/
theorem neutralChar_spec {c : Char} (h : neutralChar c = true) :
    ¬c = '/' ∧ ¬c = '>' ∧ ¬c = '}' ∧ ¬c = ']' := by
  simpa [neutralChar, and_assoc] using h

/-- Neutrality restricts to suffixes. -/
theorem all_neutral_of_suffix {w w' : Data} (hs : w <:+ w')
    (h : w'.all neutralChar = true) : w.all neutralChar = true :=
  List.all_eq_true.mpr fun x hx => List.all_eq_true.mp h x (hs.subset hx)

/-- The three possible close-tag characters. -/
theorem isCloseChar_cases {ct : Char} (h : isCloseChar ct = true) :
    ct = '>' ∨ ct = '}' ∨ ct = ']' := by
  simpa [isCloseChar, or_assoc] using h

/-- Retargeting a dialect tail. -/
theorem retarget_append (ct b : Char) (w : Data) :
    retarget ct (w ++ ['/', b]) = w ++ ['/', ct] := by
  unfold retarget
  have h : w ++ ['/', b] = (w ++ ['/']) ++ [b] := by simp
  rw [h, List.dropLast_concat]
  simp

/-- Transport is the identity on results that are not pairs. -/
theorem mapGavRest_no_pair {x : GavRes} (ct : Char)
    (h : ∀ v r, x ≠ .ok (some (v, r))) : mapGavRest ct x = x := by
  cases x with
  | error e => rfl
  | ok o =>
    cases o with
    | none => rfl
    | some p => exact absurd rfl (h p.1 p.2)

/-- The list loop behaves identically on bodies that differ only in the
dialect tail, provided the element parser does. -/
theorem gav_listLoop_swap (step₁ step₂ : Data → GavRes) (ct : Char)
    (hstep : ∀ w : Data, w.all neutralChar = true →
      step₁ (w ++ ['/', ct]) = mapGavRest ct (step₂ (w ++ ['/', '>'])) ∧
      (∀ v r, step₂ (w ++ ['/', '>']) = .ok (some (v, r)) →
        ∃ w2 : Data, w2.all neutralChar = true ∧ r = w2 ++ ['/', '>'])) :
    ∀ f (w : Data), w.all neutralChar = true →
      gav_listLoop step₁ f (w ++ ['/', ct]) =
        gav_listLoop step₂ f (w ++ ['/', '>']) := by
  intro f
  induction f with
  | zero => intro w hw; rfl
  | succ f ih =>
    intro w hw
    obtain ⟨he, hshape⟩ := hstep w hw
    cases w with
    | nil =>
      simp only [List.nil_append] at he hshape ⊢
      unfold gav_listLoop
      rw [if_neg (show ¬('/' : Char) = ']' by decide),
        if_neg (show ¬('/' : Char) = ']' by decide), he]
      cases hs : step₂ ['/', '>'] with
      | error e => rfl
      | ok o =>
        cases o with
        | none => rfl
        | some p =>
          obtain ⟨v, r⟩ := p
          obtain ⟨w2, hw2, hr⟩ := hshape v r hs
          subst hr
          simp only [mapGavRest, retarget_append]
          exact ih w2 hw2
    | cons c w' =>
      have hc := neutralChar_spec (by
        have := List.all_eq_true.mp hw c (by simp)
        simpa using this)
      simp only [List.cons_append] at he hshape ⊢
      unfold gav_listLoop
      rw [if_neg (show ¬c = ']' from hc.2.2.2),
        if_neg (show ¬c = ']' from hc.2.2.2), he]
      cases hs : step₂ (c :: (w' ++ ['/', '>'])) with
      | error e => rfl
      | ok o =>
        cases o with
        | none => rfl
        | some p =>
          obtain ⟨v, r⟩ := p
          obtain ⟨w2, hw2, hr⟩ := hshape v r hs
          subst hr
          simp only [mapGavRest, retarget_append]
          exact ih w2 hw2

/-- `get_attribute_value` behaves identically on value regions that differ
only in the dialect tail: same value or error, remaining text differing
only in the close-tag character. -/
theorem gavF_swap :
    ∀ f (w : Data) (ct : Char), w.all neutralChar = true → isCloseChar ct = true →
      get_attribute_valueF f (w ++ ['/', ct]) =
        mapGavRest ct (get_attribute_valueF f (w ++ ['/', '>'])) ∧
      (∀ v r, get_attribute_valueF f (w ++ ['/', '>']) = .ok (some (v, r)) →
        ∃ w2 : Data, w2.all neutralChar = true ∧ r = w2 ++ ['/', '>']) := by
  intro f
  induction f with
  | zero =>
    intro w ct hw hct
    exact ⟨rfl, by intro v r h; simp [get_attribute_valueF] at h⟩
  | succ f ih =>
    intro w ct hw hct
    have hslashns : isPySpace '/' = false := by decide
    unfold get_attribute_valueF
    rw [pyLstrip_append_cons w ['>'] hslashns, pyLstrip_append_cons w [ct] hslashns]
    have hwall : (pyLstrip w).all neutralChar = true :=
      all_neutral_of_suffix (pyLstrip_suffix w) hw
    cases hpl : pyLstrip w with
    | nil =>
      simp only [List.nil_append]
      constructor
      · rw [if_neg (show ¬('/' = squote ∨ '/' = dquote) by decide),
          if_neg (show ¬('/' = squote ∨ '/' = dquote) by decide),
          if_neg (show ¬('/' : Char) = '[' by decide),
          if_neg (show ¬('/' : Char) = '[' by decide)]
        have ht : ∀ x : Char, (('/' :: [x]).takeWhile (fun a => !tokenStop a)) = [] := by
          intro x
          simp [List.takeWhile_cons, tokenStop]
        rw [if_pos (ht ct), if_pos (ht '>')]
        rfl
      · intro v r h
        rw [if_neg (show ¬('/' = squote ∨ '/' = dquote) by decide),
          if_neg (show ¬('/' : Char) = '[' by decide)] at h
        have ht : ((['/', '>'] : Data).takeWhile (fun a => !tokenStop a)) = [] := by
          simp [List.takeWhile_cons, tokenStop]
        rw [if_pos ht] at h
        simp at h
    | cons c rest' =>
      have hcall : neutralChar c = true := by
        have := List.all_eq_true.mp (hpl ▸ hwall) c (by simp)
        simpa using this
      have hrall : rest'.all neutralChar = true :=
        all_neutral_of_suffix (List.suffix_cons c rest') (hpl ▸ hwall)
      have hc := neutralChar_spec hcall
      have hcns : isPySpace c = false := pyLstrip_head_not_space w hpl
      simp only [List.cons_append]
      by_cases hq : c = squote ∨ c = dquote
      · -- quoted value: the scan never reaches either tail
        have hqaux : ∀ x : Char, isCloseChar x = true →
          quoteScan c c (rest' ++ ['/', x]) = quoteScan c c rest' := by
          intro x hx
          have hxq : x ≠ c := by
            rcases isCloseChar_cases hx with h | h | h <;> rcases hq with h' | h' <;>
              subst h <;> subst h' <;> decide
          have hxnl : x ≠ nl := by
            rcases isCloseChar_cases hx with h | h | h <;> subst h <;> decide
          have hsq : ('/' : Char) ≠ c := by
            rcases hq with h' | h' <;> subst h' <;> decide
          exact quoteScan_append_two hsq (by decide) hxq hxnl rest' c
        rw [if_pos hq, if_pos hq,
          show (rest' ++ ['/', ct] : Data) = rest' ++ ['/', ct] from rfl]
        rw [hqaux ct hct, hqaux '>' (by decide)]
        cases hscan : quoteScan c c rest' with
        | none => exact ⟨rfl, by intro v r h; simp at h⟩
        | some i =>
          simp only []
          have hi := quoteScan_some_lt rest' c hscan
          have htake : ∀ x : Char, (rest' ++ ['/', x]).take i = rest'.take i :=
            fun x => List.take_append_of_le_length (le_of_lt hi)
          have hdrop : ∀ x : Char,
              (rest' ++ ['/', x]).drop (i + 1) = rest'.drop (i + 1) ++ ['/', x] :=
            fun x => List.drop_append_of_le_length hi
          rw [htake ct, htake '>', hdrop ct, hdrop '>']
          refine ⟨?_, ?_⟩
          · simp only [mapGavRest, retarget_append]
          · intro v r h
            simp only [Except.ok.injEq, Option.some.injEq, Prod.mk.injEq] at h
            exact ⟨rest'.drop (i + 1),
              all_neutral_of_suffix (List.drop_suffix _ _) hrall, h.2.symm⟩
      · by_cases hbr : c = '['
        · rw [if_neg hq, if_neg hq, if_pos hbr, if_pos hbr]
          have hloop := gav_listLoop_swap (get_attribute_valueF f)
            (get_attribute_valueF f) ct
            (fun w2 hw2 => (ih w2 ct hw2 hct)) f rest' hrall
          refine ⟨?_, ?_⟩
          · rw [hloop]
            exact (mapGavRest_no_pair ct
              (fun v r h => gav_listLoop_no_pair _ _ _ _ h)).symm
          · intro v r h
            exact absurd h (fun h => gav_listLoop_no_pair _ _ _ _ h)
        · -- unquoted token
          have hcsp : ¬c = ' ' := by
            intro hsp
            rw [hsp] at hcns
            exact absurd hcns (by decide)
          have hstop : tokenStop c = false := by
            simp [tokenStop, hc.1, hc.2.1, hc.2.2.1, hc.2.2.2, hcsp]
          have htw : ∀ x : Char, isCloseChar x = true →
              ((c :: (rest' ++ ['/', x])).takeWhile (fun a => !tokenStop a)) =
                c :: rest'.takeWhile (fun a => !tokenStop a) := by
            intro x hx
            rw [List.takeWhile_cons, if_pos (by simp [hstop])]
            rw [takeWhile_append_stop rest' [x] (by simp [tokenStop])]
          have hlen : (rest'.takeWhile (fun a => !tokenStop a)).length ≤ rest'.length :=
            takeWhile_length_le _ _
          have hdrop : ∀ x : Char,
              ((c :: (rest' ++ ['/', x])).drop
                  ((c :: rest'.takeWhile (fun a => !tokenStop a)).length)) =
                rest'.drop ((rest'.takeWhile (fun a => !tokenStop a)).length) ++ ['/', x] := by
            intro x
            simp only [List.length_cons, List.drop_succ_cons]
            exact List.drop_append_of_le_length hlen
          rw [if_neg hq, if_neg hq, if_neg hbr, if_neg hbr]
          rw [htw ct hct, htw '>' (by decide), hdrop ct, hdrop '>']
          rw [if_neg (show ¬(c :: rest'.takeWhile (fun a => !tokenStop a)) = []
            by simp)]
          rw [if_neg (show ¬(c :: rest'.takeWhile (fun a => !tokenStop a)) = []
            by simp)]
          cases hf : pyFloat? (c :: rest'.takeWhile (fun a => !tokenStop a)) with
          | some xval =>
            refine ⟨?_, ?_⟩
            · simp only [mapGavRest, retarget_append]
            · intro v r h
              simp only [Except.ok.injEq, Option.some.injEq, Prod.mk.injEq] at h
              exact ⟨rest'.drop ((rest'.takeWhile (fun a => !tokenStop a)).length),
                all_neutral_of_suffix (List.drop_suffix _ _) hrall, h.2.symm⟩
          | none =>
            refine ⟨?_, ?_⟩
            · simp only [mapGavRest, retarget_append]
            · intro v r h
              simp only [Except.ok.injEq, Option.some.injEq, Prod.mk.injEq] at h
              exact ⟨rest'.drop ((rest'.takeWhile (fun a => !tokenStop a)).length),
                all_neutral_of_suffix (List.drop_suffix _ _) hrall, h.2.symm⟩

/-- The attribute loop behaves identically on bodies that differ only in
the dialect tail: same attribute set, and it can exit only at the final
`/` followed by the close-tag character. -/
theorem parse_attributesF_swap :
    ∀ f (w : Data) (ct : Char) (a : AttrList),
      w.all neutralChar = true → isCloseChar ct = true →
      parse_attributesF f ct a (w ++ ['/', ct]) =
        mapAttrsRest ct (parse_attributesF f '>' a (w ++ ['/', '>'])) ∧
      (∀ a' r, parse_attributesF f '>' a (w ++ ['/', '>']) = .ok (a', r) →
        r = ['/', '>']) := by
  intro f
  induction f with
  | zero =>
    intro w ct a hw hct
    exact ⟨rfl, by intro a' r h; simp [parse_attributesF] at h⟩
  | succ f ih =>
    intro w ct a hw hct
    cases w with
    | nil =>
      simp only [List.nil_append]
      unfold parse_attributesF
      rw [if_pos (Or.inl rfl), if_pos (Or.inl rfl)]
      refine ⟨?_, ?_⟩
      · simp [mapAttrsRest, retarget]
      · intro a' r h
        simp only [Except.ok.injEq, Prod.mk.injEq] at h
        exact h.2.symm
    | cons c w2 =>
      have hcall : neutralChar c = true := by
        have := List.all_eq_true.mp hw c (by simp)
        simpa using this
      have hw2all : w2.all neutralChar = true :=
        all_neutral_of_suffix (List.suffix_cons c w2) hw
      have hc := neutralChar_spec hcall
      simp only [List.cons_append]
      unfold parse_attributesF
      have hexitct : ¬(c = '/' ∨ c = ct) := by
        rintro (h | h)
        · exact hc.1 h
        · rcases isCloseChar_cases hct with hx | hx | hx <;> subst hx
          · exact hc.2.1 h
          · exact hc.2.2.1 h
          · exact hc.2.2.2 h
      have hexitgt : ¬(c = '/' ∨ c = '>') := by
        rintro (h | h)
        · exact hc.1 h
        · exact hc.2.1 h
      rw [if_neg hexitct, if_neg hexitgt]
      have hidx : ∀ x : Char, isCloseChar x = true →
          pyIndex? (· == '=') (c :: (w2 ++ ['/', x])) =
            pyIndex? (· == '=') (c :: w2) := by
        intro x hx
        have hnone : pyIndex? (· == '=') ['/', x] = none := by
          rcases isCloseChar_cases hx with h | h | h <;> subst h <;> decide
        rw [show c :: (w2 ++ ['/', x]) = (c :: w2) ++ ['/', x] from rfl]
        exact pyIndex?_append_none (c :: w2) hnone
      cases hpi : pyIndex? (· == '=') (c :: w2) with
      | none =>
        have hpart : ∀ x : Char, isCloseChar x = true →
            partitionEq (c :: (w2 ++ ['/', x])) = (c :: (w2 ++ ['/', x]), []) := by
          intro x hx
          unfold partitionEq
          rw [hidx x hx, hpi]
        rw [hpart ct hct, hpart '>' (by decide)]
        refine ⟨rfl, ?_⟩
        intro a' r h
        exact absurd h (by simp [show get_attribute_value (pyLstrip ([] : Data)) =
          .error .indexError from rfl])
      | some i =>
        have hilt := pyIndex?_some_lt (c :: w2) hpi
        have hpart : ∀ x : Char, isCloseChar x = true →
            partitionEq (c :: (w2 ++ ['/', x])) =
              ((c :: w2).take i, (c :: w2).drop (i + 1) ++ ['/', x]) := by
          intro x hx
          unfold partitionEq
          rw [hidx x hx, hpi]
          simp only []
          rw [show c :: (w2 ++ ['/', x]) = (c :: w2) ++ ['/', x] from rfl]
          rw [List.take_append_of_le_length (le_of_lt hilt),
            List.drop_append_of_le_length hilt]
        rw [hpart ct hct, hpart '>' (by decide)]
        simp only []
        have hds : ∀ x : Char, pyLstrip ((c :: w2).drop (i + 1) ++ ['/', x]) =
            pyLstrip ((c :: w2).drop (i + 1)) ++ ['/', x] :=
          fun x => pyLstrip_append_cons _ [x] (by decide)
        rw [hds ct, hds '>']
        have hw4 : (pyLstrip ((c :: w2).drop (i + 1))).all neutralChar = true :=
          all_neutral_of_suffix ((pyLstrip_suffix _).trans (List.drop_suffix _ _)) hw
        have hfuel : gavFuel (pyLstrip ((c :: w2).drop (i + 1)) ++ ['/', ct]) =
            gavFuel (pyLstrip ((c :: w2).drop (i + 1)) ++ ['/', '>']) := by
          simp [gavFuel]
        obtain ⟨hge, hgshape⟩ := gavF_swap
          (gavFuel (pyLstrip ((c :: w2).drop (i + 1)) ++ ['/', '>']))
          (pyLstrip ((c :: w2).drop (i + 1))) ct hw4 hct
        have hge' : get_attribute_value (pyLstrip ((c :: w2).drop (i + 1)) ++ ['/', ct]) =
            mapGavRest ct
              (get_attribute_value (pyLstrip ((c :: w2).drop (i + 1)) ++ ['/', '>'])) := by
          unfold get_attribute_value
          rw [hfuel]
          exact hge
        rw [hge']
        cases hgv : get_attribute_value (pyLstrip ((c :: w2).drop (i + 1)) ++ ['/', '>']) with
        | error e =>
          refine ⟨rfl, ?_⟩
          intro a' r h
          simp at h
        | ok o =>
          cases o with
          | none =>
            refine ⟨rfl, ?_⟩
            intro a' r h
            simp at h
          | some p =>
            obtain ⟨v, r0⟩ := p
            obtain ⟨w5, hw5, hr0⟩ := hgshape v r0 hgv
            subst hr0
            simp only [mapGavRest, retarget_append]
            rw [pyLstrip_append_cons w5 [ct] (by decide),
              pyLstrip_append_cons w5 ['>'] (by decide)]
            exact ih (pyLstrip w5) ct
              (dictInsert a (pyStrip ((c :: w2).take i)) v)
              (all_neutral_of_suffix (pyLstrip_suffix w5) hw5) hct

/-- With a dialect-neutral self-closing body, `parse` produces the same
outcome under every bracket dialect, up to the layout manager recorded in
the returned node. -/
theorem parseF_swap (f : Nat) (core : Data) (hall : core.all neutralChar = true)
    {oc : Char} {lm : Layout} {ct : Char}
    (hmap : layout_manager_map oc = some (lm, ct)) :
    parseF (f + 1) (oc :: core ++ ['/', ct]) =
      relabel lm (parseF (f + 1) ('<' :: core ++ ['/', '>'])) := by
  have hcases := layout_manager_map_cases hmap
  have hocslash : oc ≠ '/' := by
    rcases hcases with ⟨h, _, _⟩ | ⟨h, _, _⟩ | ⟨h, _, _⟩ <;> subst h <;> decide
  have hocns : isPySpace oc = false := by
    rcases hcases with ⟨h, _, _⟩ | ⟨h, _, _⟩ | ⟨h, _, _⟩ <;> subst h <;> decide
  have hct : isCloseChar ct = true := by
    rcases hcases with ⟨_, _, h⟩ | ⟨_, _, h⟩ | ⟨_, _, h⟩ <;> subst h <;> decide
  have hctslash : ct ≠ '/' := by
    rcases hcases with ⟨_, _, h⟩ | ⟨_, _, h⟩ | ⟨_, _, h⟩ <;> subst h <;> decide
  have hcc : ∀ (a : Char) (l : Data), a ≠ '/' → isPySpace a = false →
      check_comment (pyLstrip (a :: l)) = .ok (a :: l) := by
    intro a l ha hns
    rw [pyLstrip_cons_not_space l hns]
    exact check_comment_not_comment (isCommentStart_cons l ha)
  unfold parseF
  simp only [List.cons_append]
  rw [hcc oc (core ++ ['/', ct]) hocslash hocns,
    hcc '<' (core ++ ['/', '>']) (by decide) (by decide)]
  simp only []
  rw [hmap, show layout_manager_map '<' = some (Layout.pack, '>') from by decide]
  simp only []
  cases core with
  | nil =>
    simp only [List.nil_append]
    rw [if_pos trivial, if_pos trivial]
    have hidx : ∀ x : Char, x ≠ '/' → pyIndex? (· == x) ['/', x] = some 1 := by
      intro x hx
      have h1 : (('/' : Char) == x) = false := by
        simp [Ne.symm hx]
      simp [pyIndex?, h1]
    rw [hidx ct (Ne.symm (by exact fun h => hctslash h.symm)), hidx '>' (by decide)]
    rfl
  | cons c core2 =>
    have hcall : neutralChar c = true := by
      have := List.all_eq_true.mp hall c (by simp)
      simpa using this
    have hcne : ¬c = '/' := (neutralChar_spec hcall).1
    simp only [List.cons_append]
    rw [if_neg hcne, if_neg hcne]
    have hname : ∀ x : Char,
        ((c :: (core2 ++ ['/', x])).takeWhile (fun a => !tokenStop a)) =
          ((c :: core2).takeWhile (fun a => !tokenStop a)) := by
      intro x
      rw [show c :: (core2 ++ ['/', x]) = (c :: core2) ++ ['/', x] from rfl]
      exact takeWhile_append_stop (c :: core2) [x] (by simp [tokenStop])
    rw [hname ct, hname '>']
    by_cases hempty : ((c :: core2).takeWhile (fun a => !tokenStop a)) = []
    · rw [if_pos hempty, if_pos hempty]
      rfl
    · rw [if_neg hempty, if_neg hempty]
      have hlen2 : ((c :: core2).takeWhile (fun a => !tokenStop a)).length ≤
          (c :: core2).length := takeWhile_length_le _ _
      have hdrop : ∀ x : Char,
          ((c :: (core2 ++ ['/', x])).drop
              (((c :: core2).takeWhile (fun a => !tokenStop a)).length)) =
            ((c :: core2).drop
              (((c :: core2).takeWhile (fun a => !tokenStop a)).length)) ++ ['/', x] := by
        intro x
        rw [show c :: (core2 ++ ['/', x]) = (c :: core2) ++ ['/', x] from rfl]
        exact List.drop_append_of_le_length hlen2
      rw [hdrop ct, hdrop '>']
      have hdall : (((c :: core2).drop
          (((c :: core2).takeWhile (fun a => !tokenStop a)).length))).all neutralChar = true :=
        all_neutral_of_suffix (List.drop_suffix _ _) hall
      obtain ⟨hae, hashape⟩ := parse_attributesF_swap f
        ((c :: core2).drop (((c :: core2).takeWhile (fun a => !tokenStop a)).length))
        ct [] hdall hct
      rw [hae]
      cases hattrs : parse_attributesF f '>' []
          (((c :: core2).drop
            (((c :: core2).takeWhile (fun a => !tokenStop a)).length)) ++ ['/', '>']) with
      | error e => rfl
      | ok q =>
        obtain ⟨a', r⟩ := q
        have hr := hashape a' r hattrs
        subst hr
        rfl

/-- Wrapper form: the fuel-free `parse` on dialect-wrapped neutral
self-closing bodies. -/
theorem parse_swap (core : Data) (hall : core.all neutralChar = true)
    {oc : Char} {lm : Layout} {ct : Char}
    (hmap : layout_manager_map oc = some (lm, ct)) :
    parse (oc :: core ++ ['/', ct]) = relabel lm (parse ('<' :: core ++ ['/', '>'])) := by
  rw [parse_succ, parse_succ]
  rw [show (oc :: core ++ ['/', ct]).length = ('<' :: core ++ ['/', '>']).length by simp]
  exact parseF_swap _ core hall hmap

end Lemmas

section Claims

/-- C1: the claim states that a bracketed list value consumes the opening
bracket, parses elements until the closing bracket, consumes it, and
returns the ordered list together with the following text.  The code
instead falls off the end of `get_attribute_value` after the loop — the
collected list is discarded and Python `None` is returned — so the
attribute loop of `parse` then crashes with `TypeError` when it unpacks
the `None`.  This theorem evaluates the code at the failing inputs from
the claim. -/
theorem C1_list_value_returns_none :
    get_attribute_value "[a b c]".toList = .ok none ∧
    get_attribute_value "[1 2 3]".toList = .ok none ∧
    parse "<x values=[a b c] />".toList = .error .typeError :=
  ⟨rfl, rfl, rfl⟩

/-- C2 counterexample: the quoted value containing an escaped quote
decodes VERBATIM — its backslash is kept in the result — so the decoded
interior is not the eight-character string without the backslash that the
claim promises. -/
theorem C2_backslash_kept :
    get_attribute_value ([squote] ++
        ['i', 't', bslash, squote, 's', ' ', 'o', 'k'] ++ [squote]) =
      .ok (some (.str ['i', 't', bslash, squote, 's', ' ', 'o', 'k'], [])) ∧
    (['i', 't', bslash, squote, 's', ' ', 'o', 'k'] : Data) ≠
      ['i', 't', squote, 's', ' ', 'o', 'k'] :=
  ⟨rfl, by decide⟩

/-- C2 (amended): for every quoted attribute value the parser scans to
the next occurrence of the same quote character that is not preceded by a
backslash (the interior may not contain a newline), returns the interior
verbatim — the quote-escape backslash is kept, not consumed — and
consumes through the closing quote. -/
theorem C2_quoted_value (q : Char) (interior rest : Data)
    (hq : q = squote ∨ q = dquote)
    (hok : okInterior q q interior = true)
    (hlast : lastOr q interior ≠ bslash) :
    get_attribute_value (q :: (interior ++ q :: rest)) =
      .ok (some (.str interior, rest)) := by
  have hqs : isPySpace q = false := by
    rcases hq with h | h <;> subst h <;> decide
  rw [get_attribute_value_succ]
  unfold get_attribute_valueF
  rw [pyLstrip_cons_not_space _ hqs]
  simp only []
  rw [if_pos hq]
  rw [quoteScan_exact rest interior q hok hlast]
  simp only []
  rw [List.take_append_of_le_length le_rfl, List.take_length]
  rw [show interior ++ q :: rest = (interior ++ [q]) ++ rest by simp]
  rw [show interior.length + 1 = (interior ++ [q]).length by simp]
  rw [List.drop_left]

/-- C2 witness: the amended claim at the concrete escaped-quote input. -/
theorem C2_quoted_value_witness :
    get_attribute_value (squote ::
        (['i', 't', bslash, squote, 's', ' ', 'o', 'k'] ++ squote :: [])) =
      .ok (some (.str ['i', 't', bslash, squote, 's', ' ', 'o', 'k'], [])) :=
  C2_quoted_value squote ['i', 't', bslash, squote, 's', ' ', 'o', 'k'] []
    (Or.inl rfl) (by decide) (by decide)

/-- C3 counterexample: on the unterminated input the parse fails with the
IndexError of an out-of-bounds string access — refuting the claim that
the failure is a distinct UnexpectedEndOfInput error and not an
out-of-bounds access. -/
theorem C3_out_of_bounds :
    parse "<frame><button/>".toList = .error .indexError := rfl

/-- C3 (amended): the unterminated input fails — with the out-of-bounds
IndexError, the only end-of-input signal the code has — and no node with
silently missing children is returned. -/
theorem C3_unterminated_errors :
    parse "<frame><button/>".toList = .error .indexError ∧
    (parse "<frame><button/>".toList).toOption = none :=
  ⟨rfl, rfl⟩

/-- C4: an input whose first non-whitespace, non-comment character
selects no bracket dialect makes `layout_manager_map.get` return `None`,
and the tuple unpacking of that `None` raises `TypeError` before the
`raise ValueError` with the InvalidFormat message is ever reached — that
`raise` is dead code.  The theorem evaluates the code at the failing
input and records that the InvalidFormat failure is not the result. -/
theorem C4_invalid_leading_char :
    parse "x".toList = .error .typeError ∧
    parse "x".toList ≠ .error (.valueError "Invalid TKXML format") :=
  ⟨rfl, by
    intro h
    rw [show parse "x".toList = Except.error Err.typeError from rfl] at h
    simp at h⟩

/-- C5: parsing the self-closing leaf with a quoted and a numeric
attribute yields a node named button, pack layout, attributes text → Hi
and row → 0.0, no children, and empty remaining text. -/
theorem C5_selfclosing_leaf :
    parse ("<button text=".toList ++ [squote] ++ "Hi".toList ++ [squote] ++
        " row=0 />".toList) =
      .ok (some ⟨"button".toList,
        [("text".toList, .str "Hi".toList), ("row".toList, .num (.finite 0))],
        [], .pack⟩, []) := rfl

/-- C6 counterexample: in a pack node the claimed excluded set is slash,
close-tag `>`, `]`, `>` and space, so the token in the value region
starting `b` then a closing brace then `c` would be the three characters;
the code excludes the closing brace always and scans only `b`, and the
claimed parse of the surrounding node errors instead of succeeding. -/
theorem C6_token_scan_differs :
    get_attribute_value ("b".toList ++ ['}'] ++ "c />".toList) =
      .ok (some (.str ['b'], ['}'] ++ "c />".toList)) ∧
    claimTokenScan '>' ("b".toList ++ ['}'] ++ "c />".toList) = ['b', '}', 'c'] ∧
    (['b'] : Data) ≠ ['b', '}', 'c'] ∧
    parse ("<a x=b".toList ++ ['}'] ++ "c />".toList) = .error .indexError :=
  ⟨rfl, rfl, by decide, rfl⟩

/-- C6 (amended): an unquoted attribute value is scanned as the maximal
run of characters excluding the FIXED set slash, closing brace, `]`, `>`,
space — independent of the dialect — and the token is coerced to a float
when it parses as a float literal, else kept as a plain string; the token
42 becomes the number 42.0 and the token 42px stays a string. -/
theorem C6_unquoted_token :
    (∀ (d : Data) (c : Char) (rest : Data),
      pyLstrip d = c :: rest →
      ¬(c = squote ∨ c = dquote) → ¬c = '[' → tokenStop c = false →
      get_attribute_value d =
        .ok (some (tokenValue ((c :: rest).takeWhile (fun a => !tokenStop a)),
          (c :: rest).drop (((c :: rest).takeWhile (fun a => !tokenStop a)).length)))) ∧
    pyFloat? "42".toList = some (.finite 42) ∧
    pyFloat? "42px".toList = none := by
  refine ⟨?_, by decide, by decide⟩
  intro d c rest hpl hq hbr hstop
  rw [get_attribute_value_succ]
  unfold get_attribute_valueF
  rw [hpl]
  simp only []
  rw [if_neg hq, if_neg hbr]
  rw [if_neg (show ¬((c :: rest).takeWhile (fun a => !tokenStop a)) = [] by
    rw [List.takeWhile_cons, if_pos (by simp [hstop])]
    simp)]
  cases hf : pyFloat? ((c :: rest).takeWhile (fun a => !tokenStop a)) with
  | some x => simp [tokenValue, hf]
  | none => simp [tokenValue, hf]

/-- C6 witness: the amended claim at the concrete token 42px. -/
theorem C6_unquoted_token_witness :
    get_attribute_value "42px ".toList =
      .ok (some (tokenValue (('4' :: "2px ".toList).takeWhile (fun a => !tokenStop a)),
        ('4' :: "2px ".toList).drop
          ((('4' :: "2px ".toList).takeWhile (fun a => !tokenStop a)).length))) :=
  C6_unquoted_token.1 "42px ".toList '4' "2px ".toList rfl (by decide) (by decide) rfl

/-- C7 counterexample: the same element body parses to a TypeError under
the pack dialect but to a completed node under the grid dialect, so the
three dialects do not always yield identical names, attributes and
children. -/
theorem C7_dialects_differ :
    parse "<c x=1> y=2 />".toList = .error .typeError ∧
    parse (['{'] ++ "c x=1> y=2 /".toList ++ ['}']) =
      .ok (some ⟨['c'],
        [(['x'], .num (.finite 1)), (['>', ' ', 'y'], .num (.finite 2))],
        [], .grid⟩, []) :=
  ⟨rfl, rfl⟩

/-- C7 (amended): for every element body made of dialect-neutral
characters — none of slash, `>`, closing brace, `]` — followed by a final
slash, parsing the body wrapped in the three bracket dialects yields
identical outcomes (the same error, or nodes with identical name,
attributes and children and identical remaining text), differing only in
layout_manager, which is pack, grid, place respectively, fixed solely by
the opening bracket character. -/
theorem C7_dialect_selection (core : Data) (hall : core.all neutralChar = true) :
    parse ('{' :: core ++ ['/', '}']) = relabel .grid (parse ('<' :: core ++ ['/', '>'])) ∧
    parse ('[' :: core ++ ['/', ']']) = relabel .place (parse ('<' :: core ++ ['/', '>'])) ∧
    parse ('<' :: core ++ ['/', '>']) = relabel .pack (parse ('<' :: core ++ ['/', '>'])) :=
  ⟨parse_swap core hall (by decide), parse_swap core hall (by decide),
    parse_swap core hall (by decide)⟩

/-- C7 witness: the amended claim at a concrete neutral body. -/
theorem C7_dialect_selection_witness :
    parse ('{' :: "button text=1 ".toList ++ ['/', '}']) =
      relabel .grid (parse ('<' :: "button text=1 ".toList ++ ['/', '>'])) :=
  (C7_dialect_selection "button text=1 ".toList (by decide)).1

/-- C8: parsing always terminates within fuel linear in the input length:
every fuel of at least 2·length + 2 computes the same result as `parse`
and `get_attribute_value` — which also bound the attribute, child and
list-element loops — and that result is never the fuel-exhaustion
artifact, so no input makes any of the loops or the comment-skipping
recursion run forever. -/
theorem C8_terminates (d : Data) (f : Nat) (h : 2 * d.length + 2 ≤ f) :
    parseF f d = parse d ∧ get_attribute_valueF f d = get_attribute_value d ∧
    parse d ≠ .error .outOfFuel ∧ get_attribute_value d ≠ .error .outOfFuel :=
  ⟨parseF_eq d f h, get_attribute_valueF_eq d f h, parse_notOof d,
    get_attribute_value_notOof d⟩

/-- C8 witness: the termination bound at a concrete input and fuel. -/
theorem C8_terminates_witness :
    parseF 30 "<a/>".toList = parse "<a/>".toList ∧
    get_attribute_valueF 30 "<a/>".toList = get_attribute_value "<a/>".toList ∧
    parse "<a/>".toList ≠ .error .outOfFuel ∧
    get_attribute_value "<a/>".toList ≠ .error .outOfFuel :=
  C8_terminates "<a/>".toList 30 (by decide)

/-- C9: whenever `parse` or `get_attribute_value` returns normally, the
remaining-text component of the result is a contiguous suffix of the
string passed to that call. -/
theorem C9_rest_is_suffix :
    (∀ (d : Data) (x : Option Node) (r : Data), parse d = .ok (x, r) → r <:+ d) ∧
    (∀ (d : Data) (v : AttrValue) (r : Data),
      get_attribute_value d = .ok (some (v, r)) → r <:+ d) :=
  ⟨fun _ _ _ h => parse_suffix h, fun _ _ _ h => get_attribute_value_pair_suffix h⟩

/-- C9 witness: the suffix property at concrete inputs. -/
theorem C9_rest_is_suffix_witness :
    ([] : Data) <:+ "<a/>".toList ∧ ([' '] : Data) <:+ "x ".toList :=
  ⟨C9_rest_is_suffix.1 "<a/>".toList (some ⟨['a'], [], [], .pack⟩) [] rfl,
    C9_rest_is_suffix.2 "x ".toList (.str ['x']) [' '] rfl⟩

/-- C10 counterexample: a closing tag whose close character never occurs
in the remaining text raises the substring-not-found ValueError from
`str.index` — refuting the claim that such inputs never raise. -/
theorem C10_missing_close_raises :
    check_comment (pyLstrip "</x".toList) = .ok "</x".toList ∧
    parse "</x".toList = .error (.valueError "substring not found") :=
  ⟨rfl, rfl⟩

/-- C10 (amended): when the first non-whitespace, non-comment content is
a bracket followed by slash AND the close character of that dialect
occurs in the remaining text, `parse` returns no node paired with the
text after the first occurrence of the close character, raising no error,
also at top level. -/
theorem C10_closing_tag (d : Data) (oc : Char) (lm : Layout) (ct : Char)
    (t : Data) (i : Nat)
    (hcc : check_comment (pyLstrip d) = .ok (oc :: '/' :: t))
    (hmap : layout_manager_map oc = some (lm, ct))
    (hidx : pyIndex? (· == ct) ('/' :: t) = some i) :
    parse d = .ok (none, ('/' :: t).drop (i + 1)) := by
  rw [parse_succ]
  unfold parseF
  rw [hcc]
  simp only []
  rw [hmap]
  simp only []
  rw [if_pos trivial]
  rw [hidx]

/-- C10 witness: the amended claim at a concrete top-level closing tag. -/
theorem C10_closing_tag_witness :
    parse "</a> tail".toList = .ok (none, " tail".toList) :=
  C10_closing_tag "</a> tail".toList '<' .pack '>' "a> tail".toList 2 rfl rfl rfl

end Claims

end Tkxml
